import Mathlib

set_option maxRecDepth 100000

/-!
Verification of `emath/src/align.rs` (one- and two-dimensional alignment).

Scalars in the source are IEEE-754 `f32` values.  Two scalar models are
used side by side:

* `F32`, an extended-rational model: a finite rational, positive
  infinity, negative infinity, or NaN, with the operations used by the
  source (`+`, `-`, unary `-`, `*`, division by `2.0`) following the
  IEEE-754 rules for infinities and NaN but computing exactly on finite
  values.  It is bit-faithful for every result that involves only
  special-value propagation or f32-exact quantities, and it states the
  idealized (unrounded) arithmetic facts.

* `B32`, a bit-exact binary32 model: finite values are dyadics with a
  24-bit significand, every operation rounds to nearest with ties to
  even, and overflow produces an infinity.  Properties that depend on
  rounding or overflow are settled against this model.

Each source function that needs both is translated twice, line for line,
once per scalar model (the `...B` names).
-/

/-- Extended scalar: the values an `f32` can take that matter here —
a finite number, `+∞`, `-∞`, or NaN.  (Signed zero is not distinguished;
no claim depends on it.) -/
inductive F32 where
  | nan : F32
  | ninf : F32
  | pinf : F32
  | fin : ℚ → F32
deriving DecidableEq, Repr

namespace F32

/-- IEEE-754 negation. -/
def neg : F32 → F32
  | .nan => .nan
  | .ninf => .pinf
  | .pinf => .ninf
  | .fin q => .fin (-q)

/-- IEEE-754 addition: NaN propagates, `+∞ + -∞ = NaN`, infinities absorb
finite values, finite values add exactly. -/
def add : F32 → F32 → F32
  | .nan, _ => .nan
  | _, .nan => .nan
  | .pinf, .ninf => .nan
  | .pinf, _ => .pinf
  | .ninf, .pinf => .nan
  | .ninf, _ => .ninf
  | .fin _, .pinf => .pinf
  | .fin _, .ninf => .ninf
  | .fin a, .fin b => .fin (a + b)

/-- IEEE-754 subtraction, as addition of the negation. -/
def sub (a b : F32) : F32 := add a (neg b)

/-- IEEE-754 multiplication: NaN propagates, `0 * ±∞ = NaN`, signs of
infinities follow the sign rule, finite values multiply exactly. -/
def mul : F32 → F32 → F32
  | .nan, _ => .nan
  | _, .nan => .nan
  | .pinf, .pinf => .pinf
  | .pinf, .ninf => .ninf
  | .pinf, .fin b => if b = 0 then .nan else if 0 < b then .pinf else .ninf
  | .ninf, .pinf => .ninf
  | .ninf, .ninf => .pinf
  | .ninf, .fin b => if b = 0 then .nan else if 0 < b then .ninf else .pinf
  | .fin a, .pinf => if a = 0 then .nan else if 0 < a then .pinf else .ninf
  | .fin a, .ninf => if a = 0 then .nan else if 0 < a then .ninf else .pinf
  | .fin a, .fin b => .fin (a * b)

/-- Division by the constant `2.0`, the only division in the source. -/
def half : F32 → F32
  | .nan => .nan
  | .ninf => .ninf
  | .pinf => .pinf
  | .fin q => .fin (q / 2)

instance : Neg F32 := ⟨neg⟩
instance : Add F32 := ⟨add⟩
instance : Sub F32 := ⟨sub⟩
instance : Mul F32 := ⟨mul⟩

/-- IEEE-754 `<=` as a boolean: NaN compares false with everything. -/
def ble : F32 → F32 → Bool
  | .nan, _ => false
  | _, .nan => false
  | .ninf, _ => true
  | _, .ninf => false
  | _, .pinf => true
  | .pinf, _ => false
  | .fin a, .fin b => decide (a ≤ b)

/-- `true` exactly for finite values. -/
def isFinite : F32 → Bool
  | .fin _ => true
  | _ => false

end F32

/-- `std::ops::RangeInclusive<f32>`: a closed scalar range with a start
and an end bound (field `stop` stands for Rust's `end`). -/
structure RangeInclusive where
  start : F32
  stop : F32
deriving DecidableEq, Repr

/-- `Align` from `align.rs`: left/center/right or top/center/bottom. -/
inductive Align where
  | Min : Align
  | Center : Align
  | Max : Align
deriving DecidableEq, Repr

namespace Align

/-- `Align::to_factor`: `Min => 0.0`, `Center => 0.5`, `Max => 1.0`. -/
def to_factor : Align → F32
  | .Min => .fin 0
  | .Center => .fin (1 / 2)
  | .Max => .fin 1

/-- `Align::to_sign`: `Min => -1.0`, `Center => 0.0`, `Max => 1.0`. -/
def to_sign : Align → F32
  | .Min => .fin (-1)
  | .Center => .fin 0
  | .Max => .fin 1

/-- `Align::align_size_within_range` from `align.rs`, line for line:
`Min` yields `min..=min + size`; `Center` yields `-∞..=+∞` when
`size == f32::INFINITY` and otherwise `left..=left + size` with
`left = (min + max) / 2.0 - size / 2.0`; `Max` yields `max - size..=max`. -/
def align_size_within_range (self : Align) (size : F32)
    (range : RangeInclusive) : RangeInclusive :=
  let min := range.start
  let max := range.stop
  match self with
  | .Min => ⟨min, min + size⟩
  | .Center =>
    if size = F32.pinf then
      ⟨F32.ninf, F32.pinf⟩
    else
      let left := (min + max).half - size.half
      ⟨left, left + size⟩
  | .Max => ⟨max - size, max⟩

/-- `impl Default for Align`: the default value is `Min`. -/
def default : Align := .Min

end Align

/-- Modelled from the spec: the 2D point type `Pos2` (x, y scalars) of the
external geometry vocabulary; its definition is not under `src/`. -/
structure Pos2 where
  x : F32
  y : F32
deriving DecidableEq, Repr

/-- Modelled from the spec: the 2D vector type `Vec2` (dx, dy scalars) of
the external geometry vocabulary; its definition is not under `src/`. -/
structure Vec2 where
  x : F32
  y : F32
deriving DecidableEq, Repr

/-- Modelled from the spec: `vec2`, the constructor shorthand for `Vec2`. -/
def vec2 (x y : F32) : Vec2 := ⟨x, y⟩

/-- Modelled from the spec: `pos2`, the constructor shorthand for `Pos2`. -/
def pos2 (x y : F32) : Pos2 := ⟨x, y⟩

/-- Modelled from the spec: the axis-aligned rectangle `Rect`, defined by
its min and max corners; its definition is not under `src/`. -/
structure Rect where
  min : Pos2
  max : Pos2
deriving DecidableEq, Repr

namespace Rect

/-- Modelled from the spec: the rectangle's low x bound. -/
def left (r : Rect) : F32 := r.min.x

/-- Modelled from the spec: the rectangle's high x bound. -/
def right (r : Rect) : F32 := r.max.x

/-- Modelled from the spec: the rectangle's low y bound. -/
def top (r : Rect) : F32 := r.min.y

/-- Modelled from the spec: the rectangle's high y bound. -/
def bottom (r : Rect) : F32 := r.max.y

/-- Modelled from the spec: the rectangle's horizontal extent. -/
def width (r : Rect) : F32 := r.max.x - r.min.x

/-- Modelled from the spec: the rectangle's vertical extent. -/
def height (r : Rect) : F32 := r.max.y - r.min.y

/-- Modelled from the spec: the rectangle's size as a vector. -/
def size (r : Rect) : Vec2 := vec2 r.width r.height

/-- Modelled from the spec: the rectangle's midpoint on both axes. -/
def center (r : Rect) : Pos2 :=
  pos2 (r.min.x + r.max.x).half (r.min.y + r.max.y).half

/-- Modelled from the spec: the rectangle's x-range as a closed range. -/
def x_range (r : Rect) : RangeInclusive := ⟨r.min.x, r.max.x⟩

/-- Modelled from the spec: the rectangle's y-range as a closed range. -/
def y_range (r : Rect) : RangeInclusive := ⟨r.min.y, r.max.y⟩

/-- Modelled from the spec: construct a rectangle from its min corner and
its size: the max corner is the min corner plus the size. -/
def from_min_size (p : Pos2) (s : Vec2) : Rect :=
  ⟨p, pos2 (p.x + s.x) (p.y + s.y)⟩

/-- Modelled from the spec: construct a rectangle from an x-range and a
y-range. -/
def from_x_y_ranges (xr yr : RangeInclusive) : Rect :=
  ⟨pos2 xr.start yr.start, pos2 xr.stop yr.stop⟩

end Rect

/-- `Align2` from `align.rs`: an ordered pair of `Align` values,
`[Align; 2]` with index 0 the horizontal axis and index 1 the vertical. -/
structure Align2 where
  a0 : Align
  a1 : Align
deriving DecidableEq, Repr

namespace Align2

def LEFT_BOTTOM : Align2 := ⟨.Min, .Max⟩
def LEFT_CENTER : Align2 := ⟨.Min, .Center⟩
def LEFT_TOP : Align2 := ⟨.Min, .Min⟩
def CENTER_BOTTOM : Align2 := ⟨.Center, .Max⟩
def CENTER_CENTER : Align2 := ⟨.Center, .Center⟩
def CENTER_TOP : Align2 := ⟨.Center, .Min⟩
def RIGHT_BOTTOM : Align2 := ⟨.Max, .Max⟩
def RIGHT_CENTER : Align2 := ⟨.Max, .Center⟩
def RIGHT_TOP : Align2 := ⟨.Max, .Min⟩

/-- `Align2::x`: the horizontal component. -/
def x (self : Align2) : Align := self.a0

/-- `Align2::y`: the vertical component. -/
def y (self : Align2) : Align := self.a1

/-- `Align2::to_sign`: component-wise `Align::to_sign`. -/
def to_sign (self : Align2) : Vec2 :=
  vec2 self.x.to_sign self.y.to_sign

/-- `Align2::anchor_rect` from `align.rs`: per axis the origin is the
rect's low bound for `Min`, the low bound minus `0.5 *` the extent for
`Center`, the low bound minus the extent for `Max`; the result is built
with `Rect::from_min_size` from that origin and the rect's size. -/
def anchor_rect (self : Align2) (rect : Rect) : Rect :=
  let x := match self.x with
    | .Min => rect.left
    | .Center => rect.left - F32.fin (1 / 2) * rect.width
    | .Max => rect.left - rect.width
  let y := match self.y with
    | .Min => rect.top
    | .Center => rect.top - F32.fin (1 / 2) * rect.height
    | .Max => rect.top - rect.height
  Rect.from_min_size (pos2 x y) rect.size

/-- `Align2::align_size_within_rect` from `align.rs`: align each axis of
`size` within the corresponding range of `frame` and recombine. -/
def align_size_within_rect (self : Align2) (size : Vec2) (frame : Rect) :
    Rect :=
  let x_range := self.x.align_size_within_range size.x frame.x_range
  let y_range := self.y.align_size_within_range size.y frame.y_range
  Rect.from_x_y_ranges x_range y_range

/-- `Align2::pos_in_rect` from `align.rs`: per axis the frame's low bound
for `Min`, the frame's center for `Center`, the frame's high bound for
`Max`. -/
def pos_in_rect (self : Align2) (frame : Rect) : Pos2 :=
  let x := match self.x with
    | .Min => frame.left
    | .Center => frame.center.x
    | .Max => frame.right
  let y := match self.y with
    | .Min => frame.top
    | .Center => frame.center.y
    | .Max => frame.bottom
  pos2 x y

end Align2

/-- `center_size_in_rect` from `align.rs`: centering as a free function. -/
def center_size_in_rect (size : Vec2) (frame : Rect) : Rect :=
  Align2.CENTER_CENTER.align_size_within_rect size frame

/-!
The bit-exact binary32 scalar model `B32` and the second translation of
the source functions over it.
-/

/-- Floor of the base-2 logarithm, by fuelled structural recursion; exact
whenever `n ≤ fuel`. -/
def ilog2F : ℕ → ℕ → ℕ
  | 0, _ => 0
  | f + 1, n => if n ≤ 1 then 0 else ilog2F f (n / 2) + 1

/-- Floor of the base-2 logarithm of a positive natural number. -/
def ilog2 (n : ℕ) : ℕ := ilog2F n n

/-- Strip all factors of two, increasing the exponent accumulator once
per stripped factor; exact whenever `1 ≤ n ≤ fuel`. -/
def stripTwosF : ℕ → ℕ → ℤ → ℕ × ℤ
  | 0, n, t => (n, t)
  | f + 1, n, t => if n % 2 = 0 then stripTwosF f (n / 2) (t + 1) else (n, t)

/-- Bit-exact IEEE-754 binary32 scalar: NaN, the two infinities, or a
finite dyadic value `m * 2^e` (canonical form: `m` odd, or
`m = 0 ∧ e = 0`).  Signed zero is not distinguished; no claim under
study depends on it. -/
inductive B32 where
  | nan : B32
  | ninf : B32
  | pinf : B32
  | dy : ℤ → ℤ → B32
deriving DecidableEq, Repr

namespace B32

/-- Round the positive dyadic value `N * 2^E` (`N ≥ 1`) to binary32:
24-bit significand, round to nearest with ties to even, gradual
underflow below `2^(-126)` (precision floor at `2^(-149)`), and `none`
on overflow (rounded magnitude reaching `2^128`).  The result pair is
put in canonical form by stripping factors of two. -/
def roundPos (N : ℕ) (E : ℤ) : Option (ℕ × ℤ) :=
  let a : ℤ := ilog2 N
  let T : ℤ := max (a + E - 23) (-149)
  let R : ℕ :=
    if T ≤ E then N * 2 ^ (E - T).toNat
    else
      let d : ℕ := (T - E).toNat
      let q : ℕ := N / 2 ^ d
      let r : ℕ := N % 2 ^ d
      let h : ℕ := 2 ^ (d - 1)
      if h < r then q + 1
      else if r < h then q
      else if q % 2 = 1 then q + 1 else q
  if 2 ^ 277 ≤ R * 2 ^ (T + 149).toNat then none
  else some (stripTwosF R R T)

/-- Round the dyadic value `M * 2^E` to binary32; the sign is handled by
symmetry (IEEE-754 round-to-nearest is sign-symmetric) and zero is
canonicalized. -/
def roundDyadic (M : ℤ) (E : ℤ) : B32 :=
  if M = 0 then .dy 0 0
  else
    match roundPos M.natAbs E with
    | none => if M < 0 then .ninf else .pinf
    | some (n, t) =>
      if n = 0 then .dy 0 0
      else .dy (if M < 0 then -(n : ℤ) else (n : ℤ)) t

/-- The binary32 value of an integer. -/
def ofInt (n : ℤ) : B32 := roundDyadic n 0

/-- IEEE-754 negation. -/
def neg : B32 → B32
  | .nan => .nan
  | .ninf => .pinf
  | .pinf => .ninf
  | .dy m e => .dy (-m) e

/-- IEEE-754 binary32 addition: special values as in `F32.add`; finite
values are added exactly as dyadics and then rounded. -/
def add : B32 → B32 → B32
  | .nan, _ => .nan
  | _, .nan => .nan
  | .pinf, .ninf => .nan
  | .pinf, _ => .pinf
  | .ninf, .pinf => .nan
  | .ninf, _ => .ninf
  | .dy _ _, .pinf => .pinf
  | .dy _ _, .ninf => .ninf
  | .dy m1 e1, .dy m2 e2 =>
    let emin := min e1 e2
    roundDyadic (m1 * 2 ^ (e1 - emin).toNat + m2 * 2 ^ (e2 - emin).toNat)
      emin

/-- IEEE-754 binary32 subtraction, as addition of the negation (the
exact difference is rounded once, as in hardware). -/
def sub (a b : B32) : B32 := add a (neg b)

/-- IEEE-754 binary32 multiplication: special values as in `F32.mul`
(the sign of a finite `dy m e` is the sign of `m`); finite values are
multiplied exactly and then rounded. -/
def mul : B32 → B32 → B32
  | .nan, _ => .nan
  | _, .nan => .nan
  | .pinf, .pinf => .pinf
  | .pinf, .ninf => .ninf
  | .pinf, .dy b _ => if b = 0 then .nan else if 0 < b then .pinf else .ninf
  | .ninf, .pinf => .ninf
  | .ninf, .ninf => .pinf
  | .ninf, .dy b _ => if b = 0 then .nan else if 0 < b then .ninf else .pinf
  | .dy a _, .pinf => if a = 0 then .nan else if 0 < a then .pinf else .ninf
  | .dy a _, .ninf => if a = 0 then .nan else if 0 < a then .ninf else .pinf
  | .dy m1 e1, .dy m2 e2 => roundDyadic (m1 * m2) (e1 + e2)

/-- Division by the constant `2.0`: exact on the exponent and rounded
(only subnormals can lose a bit). -/
def half : B32 → B32
  | .nan => .nan
  | .ninf => .ninf
  | .pinf => .pinf
  | .dy m e => roundDyadic m (e - 1)

instance : Neg B32 := ⟨neg⟩
instance : Add B32 := ⟨add⟩
instance : Sub B32 := ⟨sub⟩
instance : Mul B32 := ⟨mul⟩

/-- IEEE-754 `<=` as a boolean: NaN compares false with everything;
finite dyadics are compared exactly. -/
def ble : B32 → B32 → Bool
  | .nan, _ => false
  | _, .nan => false
  | .ninf, _ => true
  | _, .ninf => false
  | _, .pinf => true
  | .pinf, _ => false
  | .dy m1 e1, .dy m2 e2 =>
    decide
      (m1 * 2 ^ (e1 - min e1 e2).toNat ≤ m2 * 2 ^ (e2 - min e1 e2).toNat)

/-- `true` exactly for finite values. -/
def isFinite : B32 → Bool
  | .dy _ _ => true
  | _ => false

/-- The values an actual `f32` bit pattern can denote in this model:
special values, canonical zero, or an odd significand of fewer than 24
bits with exponent at least `-149` and magnitude below `2^128`. -/
def valid : B32 → Prop
  | .nan => True
  | .ninf => True
  | .pinf => True
  | .dy m e =>
    (m = 0 ∧ e = 0) ∨
      (m % 2 = 1 ∧ m.natAbs < 2 ^ 24 ∧ -149 ≤ e ∧
        m.natAbs * 2 ^ (e + 149).toNat < 2 ^ 277)

instance (x : B32) : Decidable (valid x) := by
  cases x <;> simp only [valid] <;> infer_instance

end B32

/-- `std::ops::RangeInclusive<f32>` over the bit-exact scalar model. -/
structure RangeInclusiveB where
  start : B32
  stop : B32
deriving DecidableEq, Repr

/-- `Align::to_factor` over the bit-exact model: `0.0`, `0.5`
(that is `2^(-1)`), `1.0`. -/
def Align.to_factorB : Align → B32
  | .Min => .dy 0 0
  | .Center => .dy 1 (-1)
  | .Max => .dy 1 0

/-- `Align::align_size_within_range` over the bit-exact model; the same
line-for-line translation of the source as `align_size_within_range`. -/
def Align.align_size_within_rangeB (self : Align) (size : B32)
    (range : RangeInclusiveB) : RangeInclusiveB :=
  let min := range.start
  let max := range.stop
  match self with
  | .Min => ⟨min, min + size⟩
  | .Center =>
    if size = B32.pinf then
      ⟨B32.ninf, B32.pinf⟩
    else
      let left := (min + max).half - size.half
      ⟨left, left + size⟩
  | .Max => ⟨max - size, max⟩

/-- Modelled from the spec: the 2D point type over the bit-exact scalar
model. -/
structure Pos2B where
  x : B32
  y : B32
deriving DecidableEq, Repr

/-- Modelled from the spec: the 2D vector type over the bit-exact scalar
model. -/
structure Vec2B where
  x : B32
  y : B32
deriving DecidableEq, Repr

/-- Modelled from the spec: the axis-aligned rectangle over the
bit-exact scalar model. -/
structure RectB where
  min : Pos2B
  max : Pos2B
deriving DecidableEq, Repr

namespace RectB

/-- Modelled from the spec: the rectangle's low x bound. -/
def left (r : RectB) : B32 := r.min.x

/-- Modelled from the spec: the rectangle's low y bound. -/
def top (r : RectB) : B32 := r.min.y

/-- Modelled from the spec: the rectangle's horizontal extent. -/
def width (r : RectB) : B32 := r.max.x - r.min.x

/-- Modelled from the spec: the rectangle's vertical extent. -/
def height (r : RectB) : B32 := r.max.y - r.min.y

/-- Modelled from the spec: the rectangle's size as a vector. -/
def size (r : RectB) : Vec2B := ⟨r.width, r.height⟩

/-- Modelled from the spec: construct a rectangle from its min corner
and its size. -/
def from_min_size (p : Pos2B) (s : Vec2B) : RectB :=
  ⟨p, ⟨p.x + s.x, p.y + s.y⟩⟩

end RectB

/-- `Align2::anchor_rect` over the bit-exact model; the same
line-for-line translation of the source as `anchor_rect` (`0.5` is the
dyadic `2^(-1)`). -/
def Align2.anchor_rectB (self : Align2) (rect : RectB) : RectB :=
  let x := match self.x with
    | .Min => rect.left
    | .Center => rect.left - B32.dy 1 (-1) * rect.width
    | .Max => rect.left - rect.width
  let y := match self.y with
    | .Min => rect.top
    | .Center => rect.top - B32.dy 1 (-1) * rect.height
    | .Max => rect.top - rect.height
  RectB.from_min_size ⟨x, y⟩ rect.size

/-! Evaluation lemmas for the `F32` operation tables. -/

namespace F32

@[simp] theorem neg_fin (a : ℚ) : -(fin a) = fin (-a) := rfl

@[simp] theorem neg_pinf : -pinf = ninf := rfl

@[simp] theorem neg_ninf : -ninf = pinf := rfl

@[simp] theorem neg_nan : -nan = nan := rfl

@[simp] theorem fin_add_fin (a b : ℚ) : fin a + fin b = fin (a + b) := rfl

@[simp] theorem fin_add_pinf (a : ℚ) : fin a + pinf = pinf := rfl

@[simp] theorem fin_add_ninf (a : ℚ) : fin a + ninf = ninf := rfl

@[simp] theorem pinf_add_fin (a : ℚ) : pinf + fin a = pinf := rfl

@[simp] theorem ninf_add_fin (a : ℚ) : ninf + fin a = ninf := rfl

@[simp] theorem pinf_add_pinf : pinf + pinf = pinf := rfl

@[simp] theorem ninf_add_ninf : ninf + ninf = ninf := rfl

@[simp] theorem pinf_add_ninf : pinf + ninf = nan := rfl

@[simp] theorem ninf_add_pinf : ninf + pinf = nan := rfl

@[simp] theorem nan_add (a : F32) : nan + a = nan := by cases a <;> rfl

@[simp] theorem add_nan (a : F32) : a + nan = nan := by cases a <;> rfl

theorem sub_def (a b : F32) : a - b = a + -b := rfl

@[simp] theorem fin_sub_fin (a b : ℚ) : fin a - fin b = fin (a - b) := by
  show fin a + -(fin b) = fin (a - b)
  rw [neg_fin, fin_add_fin, ← sub_eq_add_neg]

@[simp] theorem fin_sub_pinf (a : ℚ) : fin a - pinf = ninf := rfl

@[simp] theorem fin_sub_ninf (a : ℚ) : fin a - ninf = pinf := rfl

@[simp] theorem pinf_sub_fin (a : ℚ) : pinf - fin a = pinf := rfl

@[simp] theorem ninf_sub_fin (a : ℚ) : ninf - fin a = ninf := rfl

@[simp] theorem pinf_sub_pinf : pinf - pinf = nan := rfl

@[simp] theorem ninf_sub_ninf : ninf - ninf = nan := rfl

@[simp] theorem pinf_sub_ninf : pinf - ninf = pinf := rfl

@[simp] theorem ninf_sub_pinf : ninf - pinf = ninf := rfl

@[simp] theorem nan_sub (a : F32) : nan - a = nan := by cases a <;> rfl

@[simp] theorem sub_nan (a : F32) : a - nan = nan := by cases a <;> rfl

@[simp] theorem fin_mul_fin (a b : ℚ) : fin a * fin b = fin (a * b) := rfl

@[simp] theorem fin_mul_pinf (a : ℚ) :
    fin a * pinf = if a = 0 then nan else if 0 < a then pinf else ninf := rfl

@[simp] theorem fin_mul_ninf (a : ℚ) :
    fin a * ninf = if a = 0 then nan else if 0 < a then ninf else pinf := rfl

@[simp] theorem pinf_mul_fin (b : ℚ) :
    pinf * fin b = if b = 0 then nan else if 0 < b then pinf else ninf := rfl

@[simp] theorem ninf_mul_fin (b : ℚ) :
    ninf * fin b = if b = 0 then nan else if 0 < b then ninf else pinf := rfl

@[simp] theorem half_fin (a : ℚ) : (fin a).half = fin (a / 2) := rfl

@[simp] theorem half_pinf : pinf.half = pinf := rfl

@[simp] theorem half_ninf : ninf.half = ninf := rfl

@[simp] theorem half_nan : nan.half = nan := rfl

@[simp] theorem ble_fin_fin (a b : ℚ) : ble (fin a) (fin b) = decide (a ≤ b) :=
  rfl

theorem half_sub_add (c : F32) (s : ℚ) :
    c.half - fin (s / 2) + fin s = c.half + fin (s / 2) := by
  cases c <;> simp
  ring

end F32

/-!
Lemmas about the bit-exact model: the fuelled helpers are exact with
enough fuel, rounding returns representable values unchanged, and every
operation produces a canonical (valid) value.
-/

theorem ilog2F_spec :
    ∀ (f n : ℕ), 1 ≤ n → n ≤ f →
      2 ^ ilog2F f n ≤ n ∧ n < 2 ^ (ilog2F f n + 1) := by
  intro f
  induction f with
  | zero => intro n h1 h2; omega
  | succ f ih =>
    intro n h1 h2
    by_cases h : n ≤ 1
    · have hn : n = 1 := by omega
      subst hn
      simp [ilog2F]
    · simp only [ilog2F, if_neg h]
      have hrec := ih (n / 2) (by omega) (by omega)
      obtain ⟨l1, l2⟩ := hrec
      have e1 : 2 ^ (ilog2F f (n / 2) + 1) = 2 * 2 ^ ilog2F f (n / 2) := by
        rw [pow_succ]; ring
      have e2 : 2 ^ (ilog2F f (n / 2) + 1 + 1) =
          2 * 2 ^ (ilog2F f (n / 2) + 1) := by
        rw [pow_succ _ (ilog2F f (n / 2) + 1)]; ring
      omega

theorem ilog2_spec (n : ℕ) (h : 1 ≤ n) :
    2 ^ ilog2 n ≤ n ∧ n < 2 ^ (ilog2 n + 1) :=
  ilog2F_spec n n h le_rfl

theorem ilog2_unique (n b : ℕ) (h1 : 2 ^ b ≤ n) (h2 : n < 2 ^ (b + 1)) :
    ilog2 n = b := by
  have hn : 1 ≤ n := le_trans (Nat.one_le_two_pow) h1
  obtain ⟨s1, s2⟩ := ilog2_spec n hn
  have hb1 : b < ilog2 n + 1 :=
    (Nat.pow_lt_pow_iff_right (by norm_num)).mp (lt_of_le_of_lt h1 s2)
  have hb2 : ilog2 n < b + 1 :=
    (Nat.pow_lt_pow_iff_right (by norm_num)).mp (lt_of_le_of_lt s1 h2)
  omega

theorem stripTwosF_spec :
    ∀ (f n : ℕ) (t : ℤ), 1 ≤ n → n ≤ f →
      (stripTwosF f n t).1 % 2 = 1 ∧ t ≤ (stripTwosF f n t).2 ∧
        (stripTwosF f n t).1 * 2 ^ ((stripTwosF f n t).2 - t).toNat = n := by
  intro f
  induction f with
  | zero => intro n t h1 h2; omega
  | succ f ih =>
    intro n t h1 h2
    by_cases h : n % 2 = 0
    · simp only [stripTwosF, if_pos h]
      have hrec := ih (n / 2) (t + 1) (by omega) (by omega)
      obtain ⟨o1, o2, o3⟩ := hrec
      refine ⟨o1, by omega, ?_⟩
      have ht : ((stripTwosF f (n / 2) (t + 1)).2 - t).toNat =
          ((stripTwosF f (n / 2) (t + 1)).2 - (t + 1)).toNat + 1 := by omega
      rw [ht, pow_succ, ← mul_assoc, o3]
      omega
    · simp only [stripTwosF, if_neg h]
      exact ⟨by omega, le_rfl, by simp⟩

theorem stripTwosF_odd_mul_pow :
    ∀ (j f m : ℕ) (t : ℤ), m % 2 = 1 → m * 2 ^ j ≤ f →
      stripTwosF f (m * 2 ^ j) t = (m, t + j) := by
  intro j
  induction j with
  | zero =>
    intro f m t hodd hf
    match f with
    | 0 => omega
    | f + 1 =>
      simp only [pow_zero, mul_one, stripTwosF]
      rw [if_neg (by omega)]
      simp
  | succ j ih =>
    intro f m t hodd hf
    have hval : m * 2 ^ (j + 1) = 2 * (m * 2 ^ j) := by ring
    match f with
    | 0 =>
      exfalso
      have : 1 ≤ m := by omega
      have : 0 < m * 2 ^ (j + 1) := Nat.mul_pos (by omega) (by positivity)
      omega
    | f + 1 =>
      simp only [stripTwosF]
      rw [if_pos (by omega)]
      have hdiv : m * 2 ^ (j + 1) / 2 = m * 2 ^ j := by omega
      rw [hdiv, ih f m (t + 1) hodd (by
        have h1 : 0 < m * 2 ^ j := Nat.mul_pos (by omega) (by positivity)
        omega)]
      refine congrArg _ ?_
      push_cast
      ring

namespace B32

/-- A value that is representable in binary32 — odd significand of at
most 24 bits, exponent at least `-149`, magnitude below `2^128` — is
returned by the rounding unchanged, from any shifted dyadic
representation of it. -/
theorem roundPos_rep (m : ℕ) (e : ℤ) (hodd : m % 2 = 1) (hm : m < 2 ^ 24)
    (hge : -149 ≤ e) (hb : m * 2 ^ (e + 149).toNat < 2 ^ 277) (k : ℕ) :
    roundPos (m * 2 ^ k) (e - k) = some (m, e) := by
  have hm1 : 1 ≤ m := by omega
  have hα := ilog2_spec m hm1
  set α := ilog2 m with hαdef
  have hαle : α ≤ 23 := by
    have : (2 : ℕ) ^ α < 2 ^ 24 := lt_of_le_of_lt hα.1 hm
    have := (Nat.pow_lt_pow_iff_right (by norm_num : (1 : ℕ) < 2)).mp this
    omega
  have hN : ilog2 (m * 2 ^ k) = α + k := by
    refine ilog2_unique _ _ ?_ ?_
    · rw [pow_add]
      exact Nat.mul_le_mul_right _ hα.1
    · have h2k : 0 < 2 ^ k := by positivity
      have : m * 2 ^ k < 2 ^ (α + 1) * 2 ^ k :=
        mul_lt_mul_of_pos_right hα.2 h2k
      calc m * 2 ^ k < 2 ^ (α + 1) * 2 ^ k := this
        _ = 2 ^ (α + k + 1) := by rw [← pow_add]; ring_nf
  simp only [roundPos, hN]
  set T : ℤ := max ((α + k : ℕ) + (e - k) - 23) (-149) with hTdef
  have hTeq : T = max ((α : ℤ) + e - 23) (-149) := by
    rw [hTdef]; congr 1; push_cast; ring
  have hT1 : -149 ≤ T := le_max_right _ _
  have hT2 : T ≤ e := by
    rw [hTeq]
    exact max_le (by omega) hge
  set γ : ℕ := (e - T).toNat with hγdef
  have hγ : (γ : ℤ) = e - T := by omega
  have hR :
      (if T ≤ e - ↑k then m * 2 ^ k * 2 ^ (e - ↑k - T).toNat
        else
          if 2 ^ ((T - (e - ↑k)).toNat - 1) <
              m * 2 ^ k % 2 ^ (T - (e - ↑k)).toNat then
            m * 2 ^ k / 2 ^ (T - (e - ↑k)).toNat + 1
          else
            if m * 2 ^ k % 2 ^ (T - (e - ↑k)).toNat <
                2 ^ ((T - (e - ↑k)).toNat - 1) then
              m * 2 ^ k / 2 ^ (T - (e - ↑k)).toNat
            else
              if m * 2 ^ k / 2 ^ (T - (e - ↑k)).toNat % 2 = 1 then
                m * 2 ^ k / 2 ^ (T - (e - ↑k)).toNat + 1
              else m * 2 ^ k / 2 ^ (T - (e - ↑k)).toNat) =
        m * 2 ^ γ := by
    by_cases hc : T ≤ e - (k : ℤ)
    · rw [if_pos hc]
      have h1 : (e - ↑k - T).toNat = γ - k := by omega
      have h2 : k ≤ γ := by omega
      rw [h1, mul_assoc, ← pow_add]
      congr 2
      omega
    · rw [if_neg hc]
      set d : ℕ := (T - (e - ↑k)).toNat with hddef
      have hdk : d ≤ k := by omega
      have hd1 : 1 ≤ d := by omega
      have hkd : k - d + d = k := by omega
      have hsplit : m * 2 ^ k = m * 2 ^ (k - d) * 2 ^ d := by
        rw [mul_assoc, ← pow_add, hkd]
      have hq : m * 2 ^ k / 2 ^ d = m * 2 ^ (k - d) := by
        rw [hsplit]
        exact Nat.mul_div_cancel _ (by positivity)
      have hr : m * 2 ^ k % 2 ^ d = 0 := by
        rw [hsplit]
        exact Nat.mul_mod_left _ _
      have hγkd : γ = k - d := by omega
      rw [hq, hr]
      rw [if_neg (Nat.not_lt_zero (2 ^ (d - 1)))]
      rw [if_pos (by positivity : 0 < 2 ^ (d - 1))]
      rw [hγkd]
  rw [hR]
  have hpow : m * 2 ^ γ * 2 ^ (T + 149).toNat = m * 2 ^ (e + 149).toNat := by
    rw [mul_assoc, ← pow_add]
    congr 2
    omega
  rw [if_neg (by rw [hpow]; omega)]
  rw [stripTwosF_odd_mul_pow γ _ m T hodd le_rfl]
  have hTe : T + (γ : ℤ) = e := by omega
  rw [hTe]

/-- Rounding a representable value in canonical form returns it
unchanged. -/
theorem roundDyadic_rep (m e : ℤ) (h : valid (dy m e)) (k : ℕ) :
    roundDyadic (m * 2 ^ k) (e - k) = dy m e := by
  rcases h with ⟨hm0, he0⟩ | ⟨hodd, hlt, hge, hb⟩
  · subst hm0; subst he0
    simp [roundDyadic]
  · have hmne : m ≠ 0 := by omega
    have h2k : (0 : ℤ) < 2 ^ k := by positivity
    have hMne : m * 2 ^ k ≠ 0 := by
      intro hc
      rcases mul_eq_zero.mp hc with h | h
      · exact hmne h
      · omega
    have hnatAbs : (m * 2 ^ k).natAbs = m.natAbs * 2 ^ k := by
      rw [Int.natAbs_mul]
      congr 1
      rw [Int.natAbs_pow]
      rfl
    have hoddn : m.natAbs % 2 = 1 := by omega
    have hrp := roundPos_rep m.natAbs e hoddn hlt hge hb k
    simp only [roundDyadic, if_neg hMne, hnatAbs, hrp]
    have hn0 : m.natAbs ≠ 0 := by omega
    rw [if_neg hn0]
    rcases lt_trichotomy m 0 with hms | hms | hms
    · rw [if_pos (mul_neg_of_neg_of_pos hms h2k)]
      congr 1
      omega
    · exact absurd hms hmne
    · rw [if_neg (by
        simp only [not_lt]
        positivity)]
      · congr 1
        omega

/-- Rounding a canonical representable value with its own exponent
returns it unchanged. -/
theorem roundDyadic_self (m e : ℤ) (h : valid (dy m e)) :
    roundDyadic m e = dy m e := by
  have := roundDyadic_rep m e h 0
  simpa using this

/-- Whatever `roundPos` returns is canonical: significand zero or odd and
below `2^24`, exponent at least `-149`, magnitude below `2^128`. -/
theorem roundPos_valid (N : ℕ) (E : ℤ) (hN : 1 ≤ N) (n : ℕ) (t : ℤ)
    (hsome : roundPos N E = some (n, t)) :
    n = 0 ∨
      (n % 2 = 1 ∧ n < 2 ^ 24 ∧ -149 ≤ t ∧
        n * 2 ^ (t + 149).toNat < 2 ^ 277) := by
  have hα := ilog2_spec N hN
  set α := ilog2 N with hαdef
  simp only [roundPos] at hsome
  set T : ℤ := max ((α : ℤ) + E - 23) (-149) with hTdef
  have hT1 : -149 ≤ T := le_max_right _ _
  have hT0 : (α : ℤ) + E - 23 ≤ T := le_max_left _ _
  set R : ℕ :=
    (if T ≤ E then N * 2 ^ (E - T).toNat
      else
        if 2 ^ ((T - E).toNat - 1) < N % 2 ^ (T - E).toNat then
          N / 2 ^ (T - E).toNat + 1
        else
          if N % 2 ^ (T - E).toNat < 2 ^ ((T - E).toNat - 1) then
            N / 2 ^ (T - E).toNat
          else
            if N / 2 ^ (T - E).toNat % 2 = 1 then N / 2 ^ (T - E).toNat + 1
            else N / 2 ^ (T - E).toNat) with hRdef
  have hRle : R ≤ 2 ^ 24 := by
    rw [hRdef]
    by_cases hc : T ≤ E
    · rw [if_pos hc]
      have hEc : (E - T).toNat ≤ 23 - α := by omega
      have hαle : α ≤ 23 := by omega
      calc N * 2 ^ (E - T).toNat
          ≤ (2 ^ (α + 1) - 1) * 2 ^ (23 - α) := by
            apply Nat.mul_le_mul (by omega)
            exact Nat.pow_le_pow_right (by norm_num) hEc
        _ ≤ 2 ^ 24 := by
            rw [Nat.sub_mul, one_mul, ← pow_add]
            have h1 : α + 1 + (23 - α) = 24 := by omega
            rw [h1]
            exact Nat.sub_le _ _
    · rw [if_neg hc]
      set d : ℕ := (T - E).toNat with hddef
      have hqlt : N / 2 ^ d < 2 ^ 24 := by
        have hd : (α : ℤ) ≤ (d : ℤ) + 23 := by omega
        have hNlt : N < 2 ^ d * 2 ^ 24 := by
          rw [← pow_add]
          calc N < 2 ^ (α + 1) := hα.2
            _ ≤ 2 ^ (d + 24) := Nat.pow_le_pow_right (by norm_num) (by omega)
        exact Nat.div_lt_of_lt_mul hNlt
      split <;> try omega
      split <;> try omega
      split <;> omega
  by_cases hov : 2 ^ 277 ≤ R * 2 ^ (T + 149).toNat
  · rw [if_pos hov] at hsome
    exact absurd hsome (by simp)
  · rw [if_neg hov] at hsome
    have hpair : stripTwosF R R T = (n, t) := Option.some_injective _ hsome
    by_cases hR0 : R = 0
    · left
      rw [hR0] at hpair
      simp [stripTwosF] at hpair
      omega
    · right
      have hspec := stripTwosF_spec R R T (by omega) le_rfl
      rw [hpair] at hspec
      obtain ⟨s1, s2, s3⟩ := hspec
      dsimp only at s1 s2 s3
      have hn24 : n ≤ 2 ^ 24 := by
        have h1 : 1 ≤ 2 ^ (t - T).toNat := Nat.one_le_two_pow
        have h2 : n * 1 ≤ n * 2 ^ (t - T).toNat := Nat.mul_le_mul_left n h1
        omega
      have heven : (2 : ℕ) ^ 24 % 2 = 0 := by norm_num
      refine ⟨s1, by omega, by omega, ?_⟩
      have htsplit : (t + 149).toNat = (t - T).toNat + (T + 149).toNat := by
        omega
      calc n * 2 ^ (t + 149).toNat
          = n * 2 ^ (t - T).toNat * 2 ^ (T + 149).toNat := by
            rw [htsplit, pow_add]; ring
        _ = R * 2 ^ (T + 149).toNat := by rw [s3]
        _ < 2 ^ 277 := by omega

/-- Every result of dyadic rounding is a canonical (valid) value. -/
theorem round_output_valid (M E : ℤ) : valid (roundDyadic M E) := by
  by_cases hM : M = 0
  · simp [roundDyadic, hM, valid]
  · rcases hsome : roundPos M.natAbs E with _ | ⟨n, t⟩
    · simp only [roundDyadic, if_neg hM, hsome]
      split <;> trivial
    · simp only [roundDyadic, if_neg hM, hsome]
      rcases roundPos_valid M.natAbs E (by omega) n t hsome with hn0 | hprops
      · rw [if_pos hn0]
        simp [valid]
      · rw [if_neg (by omega)]
        right
        obtain ⟨p1, p2, p3, p4⟩ := hprops
        by_cases hMn : M < 0 <;> simp only [if_pos, if_neg, hMn, if_true,
          if_false] <;>
          refine ⟨by omega, by simpa using p2, p3, by simpa using p4⟩

/-- Every sum is canonical. -/
theorem valid_add (a b : B32) : valid (a + b) := by
  cases a <;> cases b <;> try trivial
  exact round_output_valid _ _

/-- Every difference is canonical. -/
theorem valid_sub (a b : B32) : valid (a - b) := by
  show valid (add a (neg b))
  cases a <;> cases b <;> try trivial
  exact round_output_valid _ _

/-- Every half is canonical. -/
theorem valid_half (x : B32) : valid x.half := by
  cases x <;> try trivial
  exact round_output_valid _ _

/-- Adding positive zero returns any representable value unchanged. -/
theorem add_zeroD (x : B32) (h : valid x) : x + dy 0 0 = x := by
  cases x with
  | nan => rfl
  | ninf => rfl
  | pinf => rfl
  | dy m e =>
    show add (dy m e) (dy 0 0) = dy m e
    simp only [add, zero_mul, add_zero]
    rcases le_total e 0 with he | he
    · have hmin : min e 0 = e := min_eq_left he
      rw [hmin]
      have h0 : (e - e).toNat = 0 := by omega
      rw [h0, pow_zero, mul_one]
      exact roundDyadic_self m e h
    · have hmin : min e 0 = 0 := min_eq_right he
      rw [hmin]
      rw [sub_zero]
      have hrep := roundDyadic_rep m e h e.toNat
      have h0 : e - (e.toNat : ℤ) = 0 := by omega
      rw [h0] at hrep
      exact hrep

/-- Subtracting positive zero returns any representable value
unchanged. -/
theorem sub_zeroD (x : B32) (h : valid x) : x - dy 0 0 = x := by
  have hneg : neg (dy 0 0) = dy 0 0 := by
    show dy (-0) 0 = dy 0 0
    norm_num
  show add x (neg (dy 0 0)) = x
  rw [hneg]
  exact add_zeroD x h

/-- Multiplying a representable value by one returns it unchanged. -/
theorem one_mulD (w : B32) (h : valid w) : dy 1 0 * w = w := by
  cases w with
  | nan => rfl
  | ninf =>
    show mul (dy 1 0) ninf = ninf
    simp [mul]
  | pinf =>
    show mul (dy 1 0) pinf = pinf
    simp [mul]
  | dy m e =>
    show mul (dy 1 0) (dy m e) = dy m e
    simp only [mul, one_mul, zero_add]
    exact roundDyadic_self m e h

/-- Multiplying a finite value by positive zero gives positive zero. -/
theorem zero_mulD_fin (m e : ℤ) : dy 0 0 * dy m e = dy 0 0 := by
  show mul (dy 0 0) (dy m e) = dy 0 0
  simp [mul, roundDyadic]

end B32

/-! Theorems for the claims. -/

/-- C8: `to_factor` maps `Min`, `Center`, `Max` to exactly `0.0`, `0.5`,
`1.0`; `to_sign` maps them to exactly `-1.0`, `0.0`, `1.0`; the default
`Align` value is `Min`. -/
theorem align_to_factor_to_sign_default :
    Align.Min.to_factor = F32.fin 0 ∧
    Align.Center.to_factor = F32.fin (1 / 2) ∧
    Align.Max.to_factor = F32.fin 1 ∧
    Align.Min.to_sign = F32.fin (-1) ∧
    Align.Center.to_sign = F32.fin 0 ∧
    Align.Max.to_sign = F32.fin 1 ∧
    Align.default = Align.Min :=
  ⟨rfl, rfl, rfl, rfl, rfl, rfl, rfl⟩

/-- C9: for every `Align` value `a`, `a.to_sign` equals
`2 * a.to_factor - 1` exactly. -/
theorem align_to_sign_eq_two_mul_to_factor_sub_one (a : Align) :
    a.to_sign = F32.fin 2 * a.to_factor - F32.fin 1 := by
  cases a <;> simp [Align.to_sign, Align.to_factor]
  norm_num

/-- C2: for every size and every closed range, `Min` alignment yields
`[min, min + size]` and `Max` alignment yields `[max - size, max]` — in
the exact model and in the bit-exact binary32 model alike, since the
claimed formulas name the very computations the code performs. -/
theorem align_min_max_size_within_range :
    (∀ (size : F32) (r : RangeInclusive),
      Align.Min.align_size_within_range size r = ⟨r.start, r.start + size⟩ ∧
      Align.Max.align_size_within_range size r = ⟨r.stop - size, r.stop⟩) ∧
    (∀ (size : B32) (r : RangeInclusiveB),
      Align.Min.align_size_within_rangeB size r = ⟨r.start, r.start + size⟩ ∧
      Align.Max.align_size_within_rangeB size r = ⟨r.stop - size, r.stop⟩) :=
  ⟨fun _ _ => ⟨rfl, rfl⟩, fun _ _ => ⟨rfl, rfl⟩⟩

/-- C7: the free function `center_size_in_rect` agrees with
`Align2::CENTER_CENTER.align_size_within_rect` on every size and frame. -/
theorem center_size_in_rect_eq_center_center (size : Vec2) (frame : Rect) :
    center_size_in_rect size frame =
      Align2.CENTER_CENTER.align_size_within_rect size frame := rfl

/-- C3 as stated is false of the program: in binary32 arithmetic,
`Center` aligning size `1.0` within `[16777215.0, 16777215.0]` returns
an upper bound of `16777215.0` (the code computes `left + size` with
`left` already rounded down to `16777214.0`), while the claimed formula
`(min+max)/2 + size/2` evaluates to `16777216.0`. -/
theorem align_center_rounding_counterexample :
    Align.Center.align_size_within_rangeB (B32.ofInt 1)
      ⟨B32.ofInt 16777215, B32.ofInt 16777215⟩ ≠
    ⟨(B32.ofInt 16777215 + B32.ofInt 16777215).half - (B32.ofInt 1).half,
     (B32.ofInt 16777215 + B32.ofInt 16777215).half + (B32.ofInt 1).half⟩ :=
  by decide

/-- C3 (amended): for every finite size the lower bound of the `Center`
result equals `(min+max)/2 - size/2` exactly as computed in f32; the
upper bound is that value plus `size`, which equals
`(min+max)/2 + size/2` in exact (unrounded) extended-rational
arithmetic — and bit-exactly in the concrete case, where `Center`
aligning size `2` within `[10, 20]` yields `[14, 16]` — though f32
rounding can make the two differ. -/
theorem align_center_size_within_range :
    (∀ (m e : ℤ) (r : RangeInclusiveB),
      (Align.Center.align_size_within_rangeB (B32.dy m e) r).start =
        (r.start + r.stop).half - (B32.dy m e).half) ∧
    (∀ (s : ℚ) (r : RangeInclusive),
      Align.Center.align_size_within_range (F32.fin s) r =
        ⟨(r.start + r.stop).half - (F32.fin s).half,
         (r.start + r.stop).half + (F32.fin s).half⟩) ∧
    Align.Center.align_size_within_rangeB (B32.ofInt 2)
      ⟨B32.ofInt 10, B32.ofInt 20⟩ = ⟨B32.ofInt 14, B32.ofInt 16⟩ := by
  refine ⟨fun _ _ _ => rfl, fun s r => ?_, by decide⟩
  simp [Align.align_size_within_range, F32.half_sub_add]

/-- C1 as stated is false: with `size = +∞` and `Min` alignment, a range
whose start is `-∞` yields `[-∞, NaN]` (since `-∞ + ∞ = NaN`), not
`[-∞, +∞]`. -/
theorem align_infinite_size_counterexample :
    Align.Min.align_size_within_range F32.pinf ⟨F32.ninf, F32.fin 20⟩ ≠
      ⟨F32.ninf, F32.pinf⟩ := by
  simp [Align.align_size_within_range]

/-- C1 (amended): with `size = +∞`, `Center` alignment yields exactly
`[-∞, +∞]` for every closed range (via the explicit special case, never
NaN); `Min` alignment yields `[min, +∞]` provided the range's start is
neither `-∞` nor NaN; `Max` alignment yields `[-∞, max]` provided the
range's end is neither `+∞` nor NaN. -/
theorem align_infinite_size_within_range (r : RangeInclusive) :
    Align.Center.align_size_within_range F32.pinf r =
      ⟨F32.ninf, F32.pinf⟩ ∧
    (r.start ≠ F32.ninf → r.start ≠ F32.nan →
      Align.Min.align_size_within_range F32.pinf r = ⟨r.start, F32.pinf⟩) ∧
    (r.stop ≠ F32.pinf → r.stop ≠ F32.nan →
      Align.Max.align_size_within_range F32.pinf r = ⟨F32.ninf, r.stop⟩) := by
  obtain ⟨a, b⟩ := r
  refine ⟨by simp [Align.align_size_within_range], fun h1 h2 => ?_,
    fun h1 h2 => ?_⟩
  · cases a <;> simp_all [Align.align_size_within_range]
  · cases b <;> simp_all [Align.align_size_within_range]

/-- Witness for C1 (amended): at the range `[10, 20]` the hypotheses hold
and `Min`/`Max` alignment of an infinite size give `[10, +∞]` and
`[-∞, 20]`. -/
theorem align_infinite_size_within_range_witness :
    Align.Min.align_size_within_range F32.pinf ⟨F32.fin 10, F32.fin 20⟩ =
      ⟨F32.fin 10, F32.pinf⟩ ∧
    Align.Max.align_size_within_range F32.pinf ⟨F32.fin 10, F32.fin 20⟩ =
      ⟨F32.ninf, F32.fin 20⟩ :=
  ⟨(align_infinite_size_within_range ⟨F32.fin 10, F32.fin 20⟩).2.1
      (by simp) (by simp),
   (align_infinite_size_within_range ⟨F32.fin 10, F32.fin 20⟩).2.2
      (by simp) (by simp)⟩

/-- C4 as stated is false of the program: with the finite range
`[2^127, 2^127]` (and `min ≤ max`), `Center` aligning size `0` makes
`min + max` overflow to `+∞` in binary32, so the returned range is
`[+∞, +∞]`, which is not contained in `[min, max]`. -/
theorem align_zero_size_overflow_counterexample :
    Align.Center.align_size_within_rangeB (B32.dy 0 0)
      ⟨B32.ofInt (2 ^ 127), B32.ofInt (2 ^ 127)⟩ = ⟨B32.pinf, B32.pinf⟩ ∧
    B32.ble
      (Align.Center.align_size_within_rangeB (B32.dy 0 0)
        ⟨B32.ofInt (2 ^ 127), B32.ofInt (2 ^ 127)⟩).stop
      (B32.ofInt (2 ^ 127)) = false :=
  ⟨by decide, by decide⟩

/-- C4 (amended): for every alignment, aligning size `0` within a finite
range yields a range with equal bounds (zero width) — proved bit-exactly
for every representable f32 range; the range is contained in `[m, M]`
whenever `m ≤ M` in exact (non-overflowing) arithmetic, and bit-exactly
in the concrete case `[10, 20]`, but f32 overflow of `min + max` can
place the degenerate `Center` range outside the input range. -/
theorem align_zero_size_within_range :
    (∀ (a : Align) (m1 e1 m2 e2 : ℤ), B32.valid (B32.dy m1 e1) →
      B32.valid (B32.dy m2 e2) →
      (a.align_size_within_rangeB (B32.dy 0 0)
        ⟨B32.dy m1 e1, B32.dy m2 e2⟩).start =
      (a.align_size_within_rangeB (B32.dy 0 0)
        ⟨B32.dy m1 e1, B32.dy m2 e2⟩).stop) ∧
    (∀ (a : Align) (m M : ℚ), m ≤ M →
      (a.align_size_within_range (F32.fin 0) ⟨F32.fin m, F32.fin M⟩).start =
        (a.align_size_within_range (F32.fin 0) ⟨F32.fin m, F32.fin M⟩).stop ∧
      F32.ble (F32.fin m)
        (a.align_size_within_range (F32.fin 0)
          ⟨F32.fin m, F32.fin M⟩).start = true ∧
      F32.ble
        (a.align_size_within_range (F32.fin 0) ⟨F32.fin m, F32.fin M⟩).stop
        (F32.fin M) = true) ∧
    (Align.Center.align_size_within_rangeB (B32.dy 0 0)
        ⟨B32.ofInt 10, B32.ofInt 20⟩ = ⟨B32.ofInt 15, B32.ofInt 15⟩ ∧
      B32.ble (B32.ofInt 10) (B32.ofInt 15) = true ∧
      B32.ble (B32.ofInt 15) (B32.ofInt 20) = true) := by
  refine ⟨?_, ?_, by decide, by decide, by decide⟩
  · intro a m1 e1 m2 e2 h1 h2
    cases a with
    | Min =>
      exact (B32.add_zeroD _ h1).symm
    | Max =>
      exact B32.sub_zeroD _ h2
    | Center =>
      show (B32.dy m1 e1 + B32.dy m2 e2).half - B32.dy 0 0 =
        ((B32.dy m1 e1 + B32.dy m2 e2).half - B32.dy 0 0) + B32.dy 0 0
      rw [B32.sub_zeroD _ (B32.valid_half _)]
      exact (B32.add_zeroD _ (B32.valid_half _)).symm
  · intro a m M h
    cases a <;>
      simp [Align.align_size_within_range] <;>
      (try constructor) <;> linarith

/-- Witness for C4 (amended): at `Min` alignment and the representable
range `[10, 20]` for the bit-exact part, and at `Center` alignment and
the range `[10, 20]` for the exact-arithmetic part. -/
theorem align_zero_size_within_range_witness :
    B32.valid (B32.dy 5 1) ∧ B32.valid (B32.dy 5 2) ∧ (10 : ℚ) ≤ 20 ∧
    ((Align.Min.align_size_within_rangeB (B32.dy 0 0)
        ⟨B32.dy 5 1, B32.dy 5 2⟩).start =
      (Align.Min.align_size_within_rangeB (B32.dy 0 0)
        ⟨B32.dy 5 1, B32.dy 5 2⟩).stop) ∧
    ((Align.Center.align_size_within_range (F32.fin 0)
        ⟨F32.fin 10, F32.fin 20⟩).start =
      (Align.Center.align_size_within_range (F32.fin 0)
        ⟨F32.fin 10, F32.fin 20⟩).stop ∧
    F32.ble (F32.fin 10)
      (Align.Center.align_size_within_range (F32.fin 0)
        ⟨F32.fin 10, F32.fin 20⟩).start = true ∧
    F32.ble
      (Align.Center.align_size_within_range (F32.fin 0)
        ⟨F32.fin 10, F32.fin 20⟩).stop (F32.fin 20) = true) :=
  ⟨by decide, by decide, by norm_num,
    align_zero_size_within_range.1 Align.Min 5 1 5 2 (by decide) (by decide),
    align_zero_size_within_range.2.1 Align.Center 10 20 (by norm_num)⟩

/-- C10: the `Center` special case guards only `size = +∞`; with
`size = -∞` and any finite range, the midpoint arithmetic is used and the
returned range is `[+∞, NaN]` — a NaN upper bound. -/
theorem align_center_neg_infinity_nan (m M : ℚ) :
    Align.Center.align_size_within_range F32.ninf ⟨F32.fin m, F32.fin M⟩ =
      ⟨F32.pinf, F32.nan⟩ := by
  simp [Align.align_size_within_range]

/-- C6: `pos_in_rect` returns the point whose coordinate on each axis is
the frame's low bound for `Min`, the frame's midpoint for `Center`, and
the frame's high bound for `Max`; in particular `CENTER_CENTER` on the
rectangle with min corner `(0, 0)` and size `(10, 20)` gives `(5, 10)`. -/
theorem pos_in_rect_spec :
    (∀ (al : Align2) (frame : Rect),
      (al.pos_in_rect frame).x =
        (match al.x with
          | .Min => frame.min.x
          | .Center => (frame.min.x + frame.max.x).half
          | .Max => frame.max.x) ∧
      (al.pos_in_rect frame).y =
        (match al.y with
          | .Min => frame.min.y
          | .Center => (frame.min.y + frame.max.y).half
          | .Max => frame.max.y)) ∧
    Align2.CENTER_CENTER.pos_in_rect
        (Rect.from_min_size (pos2 (F32.fin 0) (F32.fin 0))
          (vec2 (F32.fin 10) (F32.fin 20))) =
      pos2 (F32.fin 5) (F32.fin 10) := by
  constructor
  · intro al frame
    obtain ⟨ax, ay⟩ := al
    cases ax <;> cases ay <;> exact ⟨rfl, rfl⟩
  · simp [Align2.pos_in_rect, Align2.CENTER_CENTER, Align2.x, Align2.y,
      Rect.from_min_size, Rect.center, Rect.left, Rect.top, pos2, vec2]
    norm_num

/-- C5 as stated is false of the program, in three ways.  On a rect of
infinite width, the claimed origin formula `min - to_factor() * extent`
evaluates to `0 - 0 * ∞ = NaN` for a `Min` axis while the code keeps the
origin at the rect's min.  In binary32, on the finite rect with x-range
`[2^25, 2^25 + 4]` and a `Center` x-axis, the output width is `2.0`
while the input width is `4.0` (the rounded `x + width` falls back to
`2^25`), so width is not preserved.  And on a rect with finite corners
`±2^127` the width itself overflows to `+∞`, making the `Min`-axis
origin formula `NaN` again. -/
theorem anchor_rect_counterexample :
    ((Align2.LEFT_TOP.anchor_rect
        ⟨pos2 (F32.fin 0) (F32.fin 0), pos2 F32.pinf (F32.fin 1)⟩).min.x ≠
      (⟨pos2 (F32.fin 0) (F32.fin 0), pos2 F32.pinf (F32.fin 1)⟩ :
          Rect).min.x -
        Align.Min.to_factor *
          (⟨pos2 (F32.fin 0) (F32.fin 0), pos2 F32.pinf (F32.fin 1)⟩ :
            Rect).width) ∧
    ((Align2.CENTER_TOP.anchor_rectB
        ⟨⟨B32.ofInt (2 ^ 25), B32.ofInt 0⟩,
         ⟨B32.ofInt (2 ^ 25 + 4), B32.ofInt 1⟩⟩).width ≠
      RectB.width
        ⟨⟨B32.ofInt (2 ^ 25), B32.ofInt 0⟩,
         ⟨B32.ofInt (2 ^ 25 + 4), B32.ofInt 1⟩⟩) ∧
    ((Align2.LEFT_TOP.anchor_rectB
        ⟨⟨B32.ofInt (-(2 ^ 127)), B32.ofInt 0⟩,
         ⟨B32.ofInt (2 ^ 127), B32.ofInt 1⟩⟩).min.x ≠
      (⟨⟨B32.ofInt (-(2 ^ 127)), B32.ofInt 0⟩,
        ⟨B32.ofInt (2 ^ 127), B32.ofInt 1⟩⟩ : RectB).min.x -
        Align.Min.to_factorB *
          RectB.width
            ⟨⟨B32.ofInt (-(2 ^ 127)), B32.ofInt 0⟩,
             ⟨B32.ofInt (2 ^ 127), B32.ofInt 1⟩⟩) := by
  refine ⟨?_, by decide, by decide⟩
  simp [Align2.anchor_rect, Align2.LEFT_TOP, Align2.x, Align2.y,
    Rect.from_min_size, Rect.left, Rect.top, Rect.width, Rect.size,
    Align.to_factor, pos2, vec2]

/-- C5 (amended): for every `Align2` value and every rectangle whose
corner coordinates are representable f32 values and whose width and
height are finite (no overflow), `anchor_rect` puts the origin on each
axis at the rect's min minus that axis's `to_factor()` times the extent,
bit-exactly in binary32; and on every rectangle with finite coordinates
it preserves width and height, and satisfies the same origin formula, in
exact (unrounded) arithmetic — f32 rounding can change the width and
height (see the counterexample). -/
theorem anchor_rect_spec :
    (∀ (al : Align2) (r : RectB), B32.valid r.min.x → B32.valid r.min.y →
      B32.isFinite r.width = true → B32.isFinite r.height = true →
      (al.anchor_rectB r).min.x = r.min.x - al.x.to_factorB * r.width ∧
      (al.anchor_rectB r).min.y = r.min.y - al.y.to_factorB * r.height) ∧
    (∀ (al : Align2) (x0 y0 x1 y1 : ℚ),
      (al.anchor_rect
          ⟨pos2 (F32.fin x0) (F32.fin y0),
           pos2 (F32.fin x1) (F32.fin y1)⟩).width =
        (⟨pos2 (F32.fin x0) (F32.fin y0), pos2 (F32.fin x1) (F32.fin y1)⟩ :
          Rect).width ∧
      (al.anchor_rect
          ⟨pos2 (F32.fin x0) (F32.fin y0),
           pos2 (F32.fin x1) (F32.fin y1)⟩).height =
        (⟨pos2 (F32.fin x0) (F32.fin y0), pos2 (F32.fin x1) (F32.fin y1)⟩ :
          Rect).height ∧
      (al.anchor_rect
          ⟨pos2 (F32.fin x0) (F32.fin y0),
           pos2 (F32.fin x1) (F32.fin y1)⟩).min.x =
        F32.fin x0 -
          al.x.to_factor *
            (⟨pos2 (F32.fin x0) (F32.fin y0),
              pos2 (F32.fin x1) (F32.fin y1)⟩ : Rect).width ∧
      (al.anchor_rect
          ⟨pos2 (F32.fin x0) (F32.fin y0),
           pos2 (F32.fin x1) (F32.fin y1)⟩).min.y =
        F32.fin y0 -
          al.y.to_factor *
            (⟨pos2 (F32.fin x0) (F32.fin y0),
              pos2 (F32.fin x1) (F32.fin y1)⟩ : Rect).height) := by
  constructor
  · intro al r h1 h2 hw hh
    obtain ⟨ax, ay⟩ := al
    constructor
    · cases ax with
      | Min =>
        show r.left = r.min.x - Align.to_factorB .Min * r.width
        rcases hwv : r.width with _ | _ | _ | ⟨mw, ew⟩
        · rw [hwv] at hw; simp [B32.isFinite] at hw
        · rw [hwv] at hw; simp [B32.isFinite] at hw
        · rw [hwv] at hw; simp [B32.isFinite] at hw
        · rw [show Align.to_factorB .Min = B32.dy 0 0 from rfl,
            B32.zero_mulD_fin, B32.sub_zeroD _ h1]
          rfl
      | Center => rfl
      | Max =>
        show r.left - r.width = r.min.x - Align.to_factorB .Max * r.width
        have hv : B32.valid r.width := B32.valid_sub r.max.x r.min.x
        rw [show Align.to_factorB .Max = B32.dy 1 0 from rfl,
          B32.one_mulD _ hv]
        rfl
    · cases ay with
      | Min =>
        show r.top = r.min.y - Align.to_factorB .Min * r.height
        rcases hhv : r.height with _ | _ | _ | ⟨mh, eh⟩
        · rw [hhv] at hh; simp [B32.isFinite] at hh
        · rw [hhv] at hh; simp [B32.isFinite] at hh
        · rw [hhv] at hh; simp [B32.isFinite] at hh
        · rw [show Align.to_factorB .Min = B32.dy 0 0 from rfl,
            B32.zero_mulD_fin, B32.sub_zeroD _ h2]
          rfl
      | Center => rfl
      | Max =>
        show r.top - r.height = r.min.y - Align.to_factorB .Max * r.height
        have hv : B32.valid r.height := B32.valid_sub r.max.y r.min.y
        rw [show Align.to_factorB .Max = B32.dy 1 0 from rfl,
          B32.one_mulD _ hv]
        rfl
  · intro al x0 y0 x1 y1
    obtain ⟨ax, ay⟩ := al
    cases ax <;> cases ay <;>
      simp [Align2.anchor_rect, Align2.x, Align2.y, Rect.from_min_size,
        Rect.left, Rect.top, Rect.width, Rect.height, Rect.size,
        Align.to_factor, pos2, vec2]

/-- Witness for C5 (amended): at `RIGHT_BOTTOM` alignment and the
representable rectangle `[1, 11] × [2, 22]`. -/
theorem anchor_rect_spec_witness :
    B32.valid (B32.ofInt 1) ∧
    B32.isFinite
      (RectB.width ⟨⟨B32.ofInt 1, B32.ofInt 2⟩,
        ⟨B32.ofInt 11, B32.ofInt 22⟩⟩) = true ∧
    ((Align2.RIGHT_BOTTOM.anchor_rectB
        ⟨⟨B32.ofInt 1, B32.ofInt 2⟩, ⟨B32.ofInt 11, B32.ofInt 22⟩⟩).min.x =
      B32.ofInt 1 -
        Align2.RIGHT_BOTTOM.x.to_factorB *
          RectB.width ⟨⟨B32.ofInt 1, B32.ofInt 2⟩,
            ⟨B32.ofInt 11, B32.ofInt 22⟩⟩ ∧
    (Align2.RIGHT_BOTTOM.anchor_rectB
        ⟨⟨B32.ofInt 1, B32.ofInt 2⟩, ⟨B32.ofInt 11, B32.ofInt 22⟩⟩).min.y =
      B32.ofInt 2 -
        Align2.RIGHT_BOTTOM.y.to_factorB *
          RectB.height ⟨⟨B32.ofInt 1, B32.ofInt 2⟩,
            ⟨B32.ofInt 11, B32.ofInt 22⟩⟩) :=
  ⟨by decide, by decide,
    anchor_rect_spec.1 Align2.RIGHT_BOTTOM
      ⟨⟨B32.ofInt 1, B32.ofInt 2⟩, ⟨B32.ofInt 11, B32.ofInt 22⟩⟩
      (by decide) (by decide) (by decide) (by decide)⟩
